import Mathlib

/-!
Shallow embedding of the byte-stream transcoders of
`td/tdutils/td/utils/misc.cpp`: the hex codec, the percent ("URL") codec,
and the run-length escape codecs (`zero_encode`/`zero_decode`,
`zero_one_encode`/`zero_one_decode`).

Byte buffers are modelled as `List Nat`, each element one byte
(constraints `c < 256` appear as hypotheses where a proof needs them).
-/

namespace td

/-- Modelled from the spec: `hex_to_int` is declared in `td/utils/misc.h`,
which is not part of the provided sources.  Per the spec (§4.1, §7) a valid
hex digit is `[0-9a-fA-F]`; on a valid digit the nibble value 0–15 is
returned and on any other byte the out-of-band value 16. -/
def hex_to_int (c : Nat) : Nat :=
  if 48 ≤ c ∧ c ≤ 57 then c - 48
  else if 97 ≤ c ∧ c ≤ 102 then c - 87
  else if 65 ≤ c ∧ c ≤ 70 then c - 55
  else 16

/-- The character set `[0-9a-fA-F]` (ASCII codes), as the spec states it. -/
def isHexChar (c : Nat) : Prop :=
  (48 ≤ c ∧ c ≤ 57) ∨ (65 ≤ c ∧ c ≤ 70) ∨ (97 ≤ c ∧ c ≤ 102)

instance (c : Nat) : Decidable (isHexChar c) := by
  unfold isHexChar; infer_instance

/-- Lowercase hex digit table `"0123456789abcdef"[d]` of `hex_encode`. -/
def hexLower (d : Nat) : Nat := if d < 10 then 48 + d else 87 + d

/-- Uppercase hex digit table `"0123456789ABCDEF"[d]` of `url_encode` and
`buffer_to_hex`. -/
def hexUpper (d : Nat) : Nat := if d < 10 then 48 + d else 55 + d

/-- The two error values of `hex_decode` ("Wrong hex string length" and
"Wrong hex string"). -/
inductive HexError where
  | InvalidLength : HexError
  | InvalidCharacter : HexError
  deriving DecidableEq, Repr

/-- The pair-scanning loop of `hex_decode`: each pair of characters is
parsed as `high*16 + low`; the first invalid character aborts with the
"Wrong hex string" error.  (The one-element case is unreachable for the
even-length inputs `hex_decode` feeds it.) -/
def hexPairs : List Nat → Except HexError (List Nat)
  | [] => Except.ok []
  | [_] => Except.error HexError.InvalidCharacter
  | h :: l :: rest =>
    if hex_to_int h = 16 ∨ hex_to_int l = 16 then
      Except.error HexError.InvalidCharacter
    else
      Except.map (fun r => (hex_to_int h * 16 + hex_to_int l) :: r)
        (hexPairs rest)

/-- `hex_decode` (misc.cpp:107-121): odd length is rejected up front with
"Wrong hex string length"; otherwise the pairs are parsed left to right. -/
def hex_decode (hex : List Nat) : Except HexError (List Nat) :=
  if hex.length % 2 ≠ 0 then Except.error HexError.InvalidLength
  else hexPairs hex

/-- `hex_encode` (misc.cpp:123-132): each byte becomes two lowercase hex
digits, high nibble (`c >> 4`) first, low nibble (`c & 15`) second. -/
def hex_encode (data : List Nat) : List Nat :=
  data.flatMap fun c => [hexLower (c / 16), hexLower (c % 16)]

/-- `buffer_to_hex` (misc.cpp:193-202): uppercase digits, LOW nibble
(`c & 15`) at the even position, high nibble (`c >> 4`) second. -/
def buffer_to_hex (buffer : List Nat) : List Nat :=
  buffer.flatMap fun c => [hexUpper (c % 16), hexUpper (c / 16)]

/-- ASCII uppercasing of a letter, used to relate the two hex digit
tables. -/
def toUpper (c : Nat) : Nat := if 97 ≤ c ∧ c ≤ 122 then c - 32 else c

/-- Modelled from the spec: `is_alnum` is declared in `td/utils/misc.h`,
outside the provided sources; the spec (§4.2) gives the unreserved set
`{A-Z, a-z, 0-9, '-', '.', '_', '~'}`, which `is_url_char`
(misc.cpp:134-136) recognises. -/
def is_url_char (c : Nat) : Bool :=
  (65 ≤ c && c ≤ 90) || (97 ≤ c && c ≤ 122) || (48 ≤ c && c ≤ 57) ||
  c == 45 || c == 46 || c == 95 || c == 126

/-- The length precomputation of `url_encode` (misc.cpp:139-142):
`3 * size`, minus 2 for every unreserved byte, folded over the input
exactly as the loop does. -/
def url_encode_length (data : List Nat) : Nat :=
  data.foldl (fun acc c => acc - 2 * (if is_url_char c then 1 else 0))
    (3 * data.length)

/-- `url_encode` (misc.cpp:138-160): an unreserved byte passes through;
any other byte becomes `%` (37) followed by two uppercase hex digits.
(The early return when no byte needs escaping yields the same bytes.) -/
def url_encode (data : List Nat) : List Nat :=
  data.flatMap fun c =>
    if is_url_char c then [c] else [37, hexUpper (c / 16), hexUpper (c % 16)]

/-- The into-buffer `url_decode` loop (misc.cpp:162-178), as the sequence
of bytes it writes: a `%` (37) with two in-bounds valid hex digits decodes
to one byte and consumes three positions; otherwise the byte passes
through (a `+` (43) becoming a space (32) when `p` is set).  The
owned-result `url_decode` (misc.cpp:180-185) returns exactly this list. -/
def url_decode (p : Bool) : List Nat → List Nat
  | [] => []
  | c :: h :: l :: rest2 =>
    if c = 37 ∧ hex_to_int h < 16 ∧ hex_to_int l < 16 then
      (hex_to_int h * 16 + hex_to_int l) :: url_decode p rest2
    else
      (if p ∧ c = 43 then 32 else c) :: url_decode p (h :: l :: rest2)
  | c :: rest => (if p ∧ c = 43 then 32 else c) :: url_decode p rest

/-- One pass of `url_decode(str, str, p)` with `from` and `to` aliased to
the same buffer (misc.cpp:187-191): reads happen at `fi`, `fi+1`, `fi+2`
on the current (already partially overwritten) buffer, the write lands at
`ti`, and the final pair is the buffer together with the bytes-written
count. -/
def urlDecodeInplaceAux (p : Bool) (buf : List Nat) (fi ti : Nat) :
    List Nat × Nat :=
  if h : fi < buf.length then
    if fi + 2 < buf.length ∧ buf.getD fi 0 = 37 ∧
        hex_to_int (buf.getD (fi + 1) 0) < 16 ∧
        hex_to_int (buf.getD (fi + 2) 0) < 16 then
      urlDecodeInplaceAux p
        (buf.set ti
          (hex_to_int (buf.getD (fi + 1) 0) * 16 +
            hex_to_int (buf.getD (fi + 2) 0)))
        (fi + 3) (ti + 1)
    else
      urlDecodeInplaceAux p
        (buf.set ti (if p ∧ buf.getD fi 0 = 43 then 32 else buf.getD fi 0))
        (fi + 1) (ti + 1)
  else (buf, ti)
termination_by buf.length - fi
decreasing_by
  all_goals simp only [List.length_set]; omega

/-- `url_decode_inplace` (misc.cpp:187-191): decode the buffer onto itself
and truncate it to the number of bytes written. -/
def url_decode_inplace (p : Bool) (str : List Nat) : List Nat :=
  (urlDecodeInplaceAux p str 0 0).1.take (urlDecodeInplaceAux p str 0 0).2

/-- Length of the maximal constant prefix: how many leading elements of
`l` equal `c`. -/
def countEq (c : Nat) : List Nat → Nat
  | [] => 0
  | x :: xs => if x = c then countEq c xs + 1 else 0

/-- `x_encode` (misc.cpp:221-235): every byte is emitted; after a byte
matched by `f` the run length `cnt` (that byte included, capped at 250) is
emitted as one byte and the whole run is skipped. -/
def x_encode (f : Nat → Bool) : List Nat → List Nat
  | [] => []
  | c :: rest =>
    if f c then
      c :: (min 249 (countEq c rest) + 1) ::
        x_encode f (rest.drop (min 249 (countEq c rest)))
    else
      c :: x_encode f rest
termination_by l => l.length
decreasing_by
  all_goals simp only [List.length_drop, List.length_cons]; omega

/-- `x_decode` (misc.cpp:207-218): a byte matched by `f` that still has a
byte after it is a run head; the next byte is the repeat count.  A matched
byte in the last position falls through to the literal branch. -/
def x_decode (f : Nat → Bool) : List Nat → List Nat
  | [] => []
  | [c] => [c]
  | c :: d :: rest =>
    if f c then List.replicate d c ++ x_decode f rest
    else c :: x_decode f (d :: rest)

/-- `is_zero` (misc.cpp:237-239). -/
def is_zero (c : Nat) : Bool := c == 0

/-- `is_zero_or_one` (misc.cpp:241-243): matches 0x00 and 0xFF. -/
def is_zero_or_one (c : Nat) : Bool := c == 0 || c == 255

/-- `zero_encode` (misc.cpp:247-249). -/
def zero_encode (data : List Nat) : List Nat := x_encode is_zero data

/-- `zero_decode` (misc.cpp:250-252). -/
def zero_decode (data : List Nat) : List Nat := x_decode is_zero data

/-- `zero_one_encode` (misc.cpp:253-255). -/
def zero_one_encode (data : List Nat) : List Nat :=
  x_encode is_zero_or_one data

/-- `zero_one_decode` (misc.cpp:256-258). -/
def zero_one_decode (data : List Nat) : List Nat :=
  x_decode is_zero_or_one data

/-- The encoded form as block structure: literal bytes not matched by `f`,
and sentinel bytes each immediately followed by a count byte in 1–250. -/
inductive RunBlocks (f : Nat → Bool) : List Nat → Prop where
  | nil : RunBlocks f []
  | lit (c : Nat) (h : f c = false) {rest : List Nat}
      (hr : RunBlocks f rest) : RunBlocks f (c :: rest)
  | run (c : Nat) (h : f c = true) (m : Nat) (h1 : 1 ≤ m) (h2 : m ≤ 250)
      {rest : List Nat} (hr : RunBlocks f rest) : RunBlocks f (c :: m :: rest)

/-- Index formulation of the encoded-form invariant: every sentinel byte
has a next byte, and that next byte is a count in 1–250. -/
def sentinelFollowedByCount (f : Nat → Bool) (l : List Nat) : Prop :=
  ∀ i, i < l.length → f (l.getD i 0) = true →
    i + 1 < l.length ∧ 1 ≤ l.getD (i + 1) 0 ∧ l.getD (i + 1) 0 ≤ 250

lemma x_encode_nil (f : Nat → Bool) : x_encode f [] = [] := by
  rw [x_encode]

lemma x_encode_cons_pos (f : Nat → Bool) (c : Nat) (rest : List Nat)
    (h : f c = true) :
    x_encode f (c :: rest) =
      c :: (min 249 (countEq c rest) + 1) ::
        x_encode f (rest.drop (min 249 (countEq c rest))) := by
  rw [x_encode, if_pos h]

lemma x_encode_cons_neg (f : Nat → Bool) (c : Nat) (rest : List Nat)
    (h : f c = false) :
    x_encode f (c :: rest) = c :: x_encode f rest := by
  rw [x_encode, if_neg (by simp [h])]

lemma x_encode_ne_nil (f : Nat → Bool) (c : Nat) (rest : List Nat) :
    x_encode f (c :: rest) ≠ [] := by
  cases hc : f c
  · rw [x_encode_cons_neg f c rest hc]; simp
  · rw [x_encode_cons_pos f c rest hc]; simp

lemma x_decode_nil (f : Nat → Bool) : x_decode f [] = [] := rfl

lemma x_decode_single (f : Nat → Bool) (c : Nat) : x_decode f [c] = [c] := rfl

lemma x_decode_cons₂_pos (f : Nat → Bool) (c d : Nat) (rest : List Nat)
    (h : f c = true) :
    x_decode f (c :: d :: rest) = List.replicate d c ++ x_decode f rest := by
  simp [x_decode, h]

lemma x_decode_cons₂_neg (f : Nat → Bool) (c d : Nat) (rest : List Nat)
    (h : f c = false) :
    x_decode f (c :: d :: rest) = c :: x_decode f (d :: rest) := by
  simp [x_decode, h]

lemma countEq_take (c : Nat) :
    ∀ (l : List Nat) (k : Nat), k ≤ countEq c l →
      l.take k = List.replicate k c := by
  intro l
  induction l with
  | nil =>
    intro k hk
    have hk0 : k = 0 := by simpa [countEq] using hk
    subst hk0; simp
  | cons x xs ih =>
    intro k hk
    by_cases hx : x = c
    · subst hx
      cases k with
      | zero => simp
      | succ k =>
        have hk' : k ≤ countEq x xs := by
          have : countEq x (x :: xs) = countEq x xs + 1 := by simp [countEq]
          omega
        simp [List.replicate_succ, ih k hk']
    · have h0 : countEq c (x :: xs) = 0 := by simp [countEq, hx]
      have hk0 : k = 0 := by omega
      subst hk0; simp

lemma countEq_replicate (c : Nat) (n : Nat) :
    countEq c (List.replicate n c) = n := by
  induction n with
  | zero => simp [countEq]
  | succ n ih => simp [List.replicate_succ, countEq, ih]

/-- Decoding an encoded stream followed by any tail recovers the original
bytes followed by the decode of the tail. -/
lemma x_decode_encode_append (f : Nat → Bool) (t : List Nat) :
    ∀ (n : Nat) (l : List Nat), l.length ≤ n →
      x_decode f (x_encode f l ++ t) = l ++ x_decode f t := by
  intro n
  induction n with
  | zero =>
    intro l hl
    obtain rfl : l = [] := List.length_eq_zero.mp (Nat.le_zero.mp hl)
    simp [x_encode_nil]
  | succ n ih =>
    intro l hl
    cases l with
    | nil => simp [x_encode_nil]
    | cons c rest =>
      cases hc : f c with
      | false =>
        rw [x_encode_cons_neg f c rest hc]
        have hlen : rest.length ≤ n := by
          simp only [List.length_cons] at hl; omega
        cases henc : x_encode f rest ++ t with
        | nil =>
          rw [List.cons_append, henc]
          obtain ⟨he, ht⟩ := List.append_eq_nil.mp henc
          have hr : rest = [] := by
            cases rest with
            | nil => rfl
            | cons a as => exact absurd he (x_encode_ne_nil f a as)
          subst hr; subst ht
          simp [x_decode]
        | cons d xs =>
          rw [List.cons_append, henc, x_decode_cons₂_neg f c d xs hc, ← henc,
            ih rest hlen]
          simp
      | true =>
        rw [x_encode_cons_pos f c rest hc]
        have hk : min 249 (countEq c rest) ≤ countEq c rest :=
          Nat.min_le_right _ _
        have hlen : (rest.drop (min 249 (countEq c rest))).length ≤ n := by
          simp only [List.length_drop]
          simp only [List.length_cons] at hl
          omega
        rw [List.cons_append, List.cons_append,
          x_decode_cons₂_pos f c _ _ hc, ih _ hlen]
        have htake : rest.take (min 249 (countEq c rest)) =
            List.replicate (min 249 (countEq c rest)) c :=
          countEq_take c rest _ hk
        have hjoin : List.replicate (min 249 (countEq c rest) + 1) c ++
            rest.drop (min 249 (countEq c rest)) = c :: rest := by
          rw [List.replicate_succ, List.cons_append, ← htake,
            List.take_append_drop]
        rw [← List.append_assoc, hjoin, List.cons_append]

lemma runBlocks_x_encode (f : Nat → Bool) :
    ∀ (n : Nat) (l : List Nat), l.length ≤ n → RunBlocks f (x_encode f l) := by
  intro n
  induction n with
  | zero =>
    intro l hl
    obtain rfl : l = [] := List.length_eq_zero.mp (Nat.le_zero.mp hl)
    rw [x_encode_nil]; exact RunBlocks.nil
  | succ n ih =>
    intro l hl
    cases l with
    | nil => rw [x_encode_nil]; exact RunBlocks.nil
    | cons c rest =>
      cases hc : f c with
      | false =>
        rw [x_encode_cons_neg f c rest hc]
        have hlen : rest.length ≤ n := by
          simp only [List.length_cons] at hl; omega
        exact RunBlocks.lit c hc (ih rest hlen)
      | true =>
        rw [x_encode_cons_pos f c rest hc]
        have hlen : (rest.drop (min 249 (countEq c rest))).length ≤ n := by
          simp only [List.length_drop]
          simp only [List.length_cons] at hl
          omega
        refine RunBlocks.run c hc _ (by omega) ?_ (ih _ hlen)
        have := Nat.min_le_left 249 (countEq c rest)
        omega

lemma runBlocks_sentinelFollowedByCount (f : Nat → Bool)
    (hf : ∀ m, 1 ≤ m → m ≤ 250 → f m = false) {l : List Nat}
    (hb : RunBlocks f l) : sentinelFollowedByCount f l := by
  induction hb with
  | nil => intro i hi; simp at hi
  | @lit c h rest hr ih =>
    intro i hi hfi
    cases i with
    | zero =>
      rw [List.getD_cons_zero] at hfi
      rw [h] at hfi; cases hfi
    | succ j =>
      have hj : j < rest.length := by
        simp only [List.length_cons] at hi; omega
      have hfj : f (rest.getD j 0) = true := by
        simpa [List.getD_cons_succ] using hfi
      obtain ⟨h1, h2, h3⟩ := ih j hj hfj
      refine ⟨?_, ?_, ?_⟩
      · simp only [List.length_cons]; omega
      · simpa [List.getD_cons_succ] using h2
      · simpa [List.getD_cons_succ] using h3
  | @run c h m h1 h2 rest hr ih =>
    intro i hi hfi
    match i with
    | 0 =>
      refine ⟨?_, ?_, ?_⟩
      · simp only [List.length_cons]; omega
      · simpa [List.getD_cons_succ, List.getD_cons_zero] using h1
      · simpa [List.getD_cons_succ, List.getD_cons_zero] using h2
    | 1 =>
      exfalso
      have hm : f m = true := by
        simpa [List.getD_cons_succ, List.getD_cons_zero] using hfi
      rw [hf m h1 h2] at hm; cases hm
    | (j + 2) =>
      have hj : j < rest.length := by
        simp only [List.length_cons] at hi
        omega
      have hfj : f (rest.getD j 0) = true := by
        simpa [List.getD_cons_succ] using hfi
      obtain ⟨ha, hb', hc'⟩ := ih j hj hfj
      refine ⟨?_, ?_, ?_⟩
      · simp only [List.length_cons]; omega
      · simpa [List.getD_cons_succ] using hb'
      · simpa [List.getD_cons_succ] using hc'

lemma zero_encode_replicate_300 :
    zero_encode (List.replicate 300 0) = [0, 250, 0, 50] := by
  rw [zero_encode]
  rw [show List.replicate 300 (0 : Nat) = 0 :: List.replicate 299 0 from
    List.replicate_succ 0 299]
  rw [x_encode_cons_pos is_zero 0 _ rfl]
  rw [countEq_replicate, List.drop_replicate]
  norm_num
  rw [show List.replicate 50 (0 : Nat) = 0 :: List.replicate 49 0 from
    List.replicate_succ 0 49]
  rw [x_encode_cons_pos is_zero 0 _ rfl]
  rw [countEq_replicate, List.drop_replicate]
  norm_num
  exact x_encode_nil is_zero

lemma hex_to_int_hexLower : ∀ d, d < 16 → hex_to_int (hexLower d) = d := by
  decide

lemma hex_to_int_hexUpper : ∀ d, d < 16 → hex_to_int (hexUpper d) = d := by
  decide

lemma hexLower_range :
    ∀ d, d < 16 → (48 ≤ hexLower d ∧ hexLower d ≤ 57) ∨
      (97 ≤ hexLower d ∧ hexLower d ≤ 102) := by
  decide

lemma hexUpper_range :
    ∀ d, d < 16 → (48 ≤ hexUpper d ∧ hexUpper d ≤ 57) ∨
      (65 ≤ hexUpper d ∧ hexUpper d ≤ 70) := by
  decide

lemma toUpper_hexLower : ∀ d, d < 16 → toUpper (hexLower d) = hexUpper d := by
  decide

lemma hex_to_int_eq_16_iff (c : Nat) : hex_to_int c = 16 ↔ ¬ isHexChar c := by
  unfold hex_to_int isHexChar
  split_ifs <;> omega

lemma hex_encode_cons (c : Nat) (rest : List Nat) :
    hex_encode (c :: rest) =
      hexLower (c / 16) :: hexLower (c % 16) :: hex_encode rest := by
  simp [hex_encode]

lemma hex_encode_length (b : List Nat) :
    (hex_encode b).length = 2 * b.length := by
  induction b with
  | nil => rfl
  | cons c rest ih =>
    rw [hex_encode_cons]
    simp only [List.length_cons, ih]
    omega

/-- Indexing into a two-characters-per-byte flat map. -/
lemma flatMap_pair_getD (g h : Nat → Nat) (b : List Nat) :
    ∀ i, i < b.length →
      (b.flatMap fun c => [g c, h c]).getD (2 * i) 0 = g (b.getD i 0) ∧
      (b.flatMap fun c => [g c, h c]).getD (2 * i + 1) 0 = h (b.getD i 0) := by
  induction b with
  | nil => intro i hi; simp at hi
  | cons c rest ih =>
    intro i hi
    have hflat : ((c :: rest).flatMap fun c => [g c, h c]) =
        g c :: h c :: (rest.flatMap fun c => [g c, h c]) := by
      simp [List.flatMap_cons]
    cases i with
    | zero => rw [hflat]; simp
    | succ j =>
      have hj : j < rest.length := by
        simp only [List.length_cons] at hi; omega
      obtain ⟨h1, h2⟩ := ih j hj
      rw [hflat]
      constructor
      · rw [show 2 * (j + 1) = 2 * j + 1 + 1 by ring, List.getD_cons_succ,
          List.getD_cons_succ, List.getD_cons_succ, h1]
      · rw [show 2 * (j + 1) + 1 = (2 * j + 1) + 1 + 1 by ring,
          List.getD_cons_succ, List.getD_cons_succ, List.getD_cons_succ, h2]

lemma hexPairs_hex_encode (b : List Nat) (hb : ∀ c ∈ b, c < 256) :
    hexPairs (hex_encode b) = Except.ok b := by
  induction b with
  | nil => rfl
  | cons c rest ih =>
    have hc : c < 256 := hb c (List.mem_cons_self c rest)
    have h1 : hex_to_int (hexLower (c / 16)) = c / 16 :=
      hex_to_int_hexLower _ (by omega)
    have h2 : hex_to_int (hexLower (c % 16)) = c % 16 :=
      hex_to_int_hexLower _ (Nat.mod_lt c (by omega))
    have hrest := ih fun x hx => hb x (List.mem_cons_of_mem c hx)
    rw [hex_encode_cons, hexPairs, if_neg (by rw [h1, h2]; omega), hrest]
    have hdm := Nat.div_add_mod c 16
    simp only [Except.map, h1, h2, Except.ok.injEq, List.cons.injEq, and_true]
    omega

lemma hexPairs_ne_invalidLength :
    ∀ (n : Nat) (l : List Nat), l.length ≤ n →
      hexPairs l ≠ Except.error HexError.InvalidLength := by
  intro n
  induction n with
  | zero =>
    intro l hl
    obtain rfl : l = [] := List.length_eq_zero.mp (Nat.le_zero.mp hl)
    simp [hexPairs]
  | succ n ih =>
    intro l hl
    match l with
    | [] => simp [hexPairs]
    | [c] => simp [hexPairs]
    | h :: l2 :: rest =>
      have hrest : rest.length ≤ n := by
        simp only [List.length_cons] at hl; omega
      rw [hexPairs]
      split_ifs with hbad
      · simp
      · cases hrec : hexPairs rest with
        | ok r => simp [Except.map]
        | error e =>
          simp only [Except.map, ne_eq, Except.error.injEq]
          intro he
          exact ih rest hrest (by rw [hrec, he])

lemma hexPairs_invalidChar_iff :
    ∀ (n : Nat) (l : List Nat), l.length ≤ n → l.length % 2 = 0 →
      (hexPairs l = Except.error HexError.InvalidCharacter ↔
        ∃ c ∈ l, ¬ isHexChar c) := by
  intro n
  induction n with
  | zero =>
    intro l hl _
    obtain rfl : l = [] := List.length_eq_zero.mp (Nat.le_zero.mp hl)
    simp [hexPairs]
  | succ n ih =>
    intro l hl heven
    match l with
    | [] => simp [hexPairs]
    | [c] => simp at heven
    | h :: l2 :: rest =>
      have hrest : rest.length ≤ n := by
        simp only [List.length_cons] at hl; omega
      have hreven : rest.length % 2 = 0 := by
        simp only [List.length_cons] at heven; omega
      rw [hexPairs]
      split_ifs with hbad
      · simp only [true_iff]
        rcases hbad with hbad | hbad
        · exact ⟨h, List.mem_cons_self _ _,
            (hex_to_int_eq_16_iff h).mp hbad⟩
        · exact ⟨l2, List.mem_cons_of_mem _ (List.mem_cons_self _ _),
            (hex_to_int_eq_16_iff l2).mp hbad⟩
      · push_neg at hbad
        have hh : isHexChar h := by
          by_contra hx
          exact hbad.1 ((hex_to_int_eq_16_iff h).mpr hx)
        have hl2 : isHexChar l2 := by
          by_contra hx
          exact hbad.2 ((hex_to_int_eq_16_iff l2).mpr hx)
        have hiff := ih rest hrest hreven
        cases hrec : hexPairs rest with
        | ok r =>
          have hnone : ¬ ∃ c ∈ rest, ¬ isHexChar c := by
            rw [← hiff, hrec]; simp
          simp only [Except.map]
          constructor
          · intro he; simp at he
          · intro hex
            obtain ⟨c, hc, hbadc⟩ := hex
            rcases List.mem_cons.mp hc with rfl | hc2
            · exact absurd hh hbadc
            · rcases List.mem_cons.mp hc2 with rfl | hc3
              · exact absurd hl2 hbadc
              · exact absurd ⟨c, hc3, hbadc⟩ hnone
        | error e =>
          simp only [Except.map]
          constructor
          · intro he
            have he' : e = HexError.InvalidCharacter := by simpa using he
            obtain ⟨c, hc, hbadc⟩ := hiff.mp (by rw [hrec, he'])
            exact ⟨c, List.mem_cons_of_mem _ (List.mem_cons_of_mem _ hc),
              hbadc⟩
          · intro hex
            obtain ⟨c, hc, hbadc⟩ := hex
            rcases List.mem_cons.mp hc with rfl | hc2
            · exact absurd hh hbadc
            · rcases List.mem_cons.mp hc2 with rfl | hc3
              · exact absurd hl2 hbadc
              · have he : e = HexError.InvalidCharacter := by
                  have := hiff.mpr ⟨c, hc3, hbadc⟩
                  rw [hrec] at this
                  simpa using this
                rw [he]

lemma hexPairs_ok :
    ∀ (n : Nat) (l : List Nat), l.length ≤ n → l.length % 2 = 0 →
      (∀ c ∈ l, isHexChar c) →
      ∃ r, hexPairs l = Except.ok r ∧ r.length = l.length / 2 ∧
        ∀ i, 2 * i + 1 < l.length →
          r.getD i 0 =
            hex_to_int (l.getD (2 * i) 0) * 16 +
              hex_to_int (l.getD (2 * i + 1) 0) := by
  intro n
  induction n with
  | zero =>
    intro l hl _ _
    obtain rfl : l = [] := List.length_eq_zero.mp (Nat.le_zero.mp hl)
    exact ⟨[], rfl, rfl, by intro i hi; simp at hi⟩
  | succ n ih =>
    intro l hl heven hhex
    match l with
    | [] => exact ⟨[], rfl, rfl, by intro i hi; simp at hi⟩
    | [c] => simp at heven
    | h :: l2 :: rest =>
      have hrest : rest.length ≤ n := by
        simp only [List.length_cons] at hl; omega
      have hreven : rest.length % 2 = 0 := by
        simp only [List.length_cons] at heven; omega
      have hh : isHexChar h := hhex h (List.mem_cons_self _ _)
      have hl2 : isHexChar l2 :=
        hhex l2 (List.mem_cons_of_mem _ (List.mem_cons_self _ _))
      have hrhex : ∀ c ∈ rest, isHexChar c := fun c hc =>
        hhex c (List.mem_cons_of_mem _ (List.mem_cons_of_mem _ hc))
      obtain ⟨r, hr, hrl, hri⟩ := ih rest hrest hreven hrhex
      refine ⟨(hex_to_int h * 16 + hex_to_int l2) :: r, ?_, ?_, ?_⟩
      · rw [hexPairs, if_neg, hr, Except.map]
        push_neg
        constructor
        · exact fun hx => absurd ((hex_to_int_eq_16_iff h).mp hx) (by simpa)
        · exact fun hx => absurd ((hex_to_int_eq_16_iff l2).mp hx) (by simpa)
      · simp only [List.length_cons, hrl]
        omega
      · intro i hi
        cases i with
        | zero => simp
        | succ j =>
          have hj : 2 * j + 1 < rest.length := by
            simp only [List.length_cons] at hi; omega
          have := hri j hj
          rw [show 2 * (j + 1) = 2 * j + 1 + 1 by ring]
          simpa [List.getD_cons_succ] using this

lemma buffer_to_hex_length (b : List Nat) :
    (buffer_to_hex b).length = 2 * b.length := by
  induction b with
  | nil => rfl
  | cons c rest ih =>
    rw [buffer_to_hex] at ih ⊢
    rw [List.flatMap_cons]
    simp only [List.length_append, ih, List.length_cons, List.length_nil]
    omega

lemma hex_encode_getD (b : List Nat) (i : Nat) (hi : i < b.length) :
    (hex_encode b).getD (2 * i) 0 = hexLower (b.getD i 0 / 16) ∧
    (hex_encode b).getD (2 * i + 1) 0 = hexLower (b.getD i 0 % 16) := by
  rw [hex_encode]
  exact flatMap_pair_getD (fun c => hexLower (c / 16))
    (fun c => hexLower (c % 16)) b i hi

lemma buffer_to_hex_getD (b : List Nat) (i : Nat) (hi : i < b.length) :
    (buffer_to_hex b).getD (2 * i) 0 = hexUpper (b.getD i 0 % 16) ∧
    (buffer_to_hex b).getD (2 * i + 1) 0 = hexUpper (b.getD i 0 / 16) := by
  rw [buffer_to_hex]
  exact flatMap_pair_getD (fun c => hexUpper (c % 16))
    (fun c => hexUpper (c / 16)) b i hi

lemma url_decode_nil (p : Bool) : url_decode p [] = [] := rfl

lemma url_decode_single (p : Bool) (c : Nat) :
    url_decode p [c] = [if p ∧ c = 43 then 32 else c] := rfl

lemma url_decode_pair (p : Bool) (c h : Nat) :
    url_decode p [c, h] =
      (if p ∧ c = 43 then 32 else c) :: url_decode p [h] := rfl

lemma url_decode_cons₃ (p : Bool) (c h l : Nat) (rest : List Nat) :
    url_decode p (c :: h :: l :: rest) =
      if c = 37 ∧ hex_to_int h < 16 ∧ hex_to_int l < 16 then
        (hex_to_int h * 16 + hex_to_int l) :: url_decode p rest
      else
        (if p ∧ c = 43 then 32 else c) :: url_decode p (h :: l :: rest) :=
  rfl

/-- A head byte with at most one byte after it is always passed through
(as a space when `p` is set and it is a plus). -/
lemma url_decode_short (p : Bool) (c : Nat) (rest : List Nat)
    (hlen : rest.length ≤ 1) :
    url_decode p (c :: rest) =
      (if p ∧ c = 43 then 32 else c) :: url_decode p rest := by
  match rest with
  | [] => exact url_decode_single p c
  | [h] => exact url_decode_pair p c h
  | h :: l :: rest2 => simp at hlen

/-- A head byte other than `%` is always passed through. -/
lemma url_decode_literal (p : Bool) (c : Nat) (rest : List Nat)
    (hc : c ≠ 37) :
    url_decode p (c :: rest) =
      (if p ∧ c = 43 then 32 else c) :: url_decode p rest := by
  match rest with
  | [] => exact url_decode_single p c
  | [h] => exact url_decode_pair p c h
  | h :: l :: rest2 =>
    rw [url_decode_cons₃, if_neg (by simp [hc])]

lemma url_decode_length_le (p : Bool) :
    ∀ (n : Nat) (l : List Nat), l.length ≤ n →
      (url_decode p l).length ≤ l.length := by
  intro n
  induction n with
  | zero =>
    intro l hl
    obtain rfl : l = [] := List.length_eq_zero.mp (Nat.le_zero.mp hl)
    simp [url_decode_nil]
  | succ n ih =>
    intro l hl
    match l with
    | [] => simp [url_decode_nil]
    | [c] => rw [url_decode_single]; rfl
    | [c, h] =>
      rw [url_decode_pair, url_decode_single]
      rfl
    | c :: h :: l2 :: rest =>
      have h1 : (h :: l2 :: rest).length ≤ n := by
        simp only [List.length_cons] at hl ⊢; omega
      have h2 : rest.length ≤ n := by
        simp only [List.length_cons] at hl; omega
      rw [url_decode_cons₃]
      by_cases hesc : c = 37 ∧ hex_to_int h < 16 ∧ hex_to_int l2 < 16
      · rw [if_pos hesc]
        have := ih rest h2
        simp only [List.length_cons]
        omega
      · rw [if_neg hesc]
        have := ih (h :: l2 :: rest) h1
        simp only [List.length_cons] at this ⊢
        omega

lemma url_encode_cons (c : Nat) (rest : List Nat) :
    url_encode (c :: rest) =
      (if is_url_char c then [c]
        else [37, hexUpper (c / 16), hexUpper (c % 16)]) ++
        url_encode rest := by
  rw [url_encode, List.flatMap_cons]
  rfl

lemma is_url_char_ne_37 (c : Nat) (hc : is_url_char c = true) : c ≠ 37 := by
  intro he
  subst he
  exact absurd hc (by decide)

lemma url_encode_length_eq_foldr (b : List Nat) :
    url_encode_length b = 3 * b.length - 2 * b.countP is_url_char := by
  suffices H : ∀ (l : List Nat) (acc : Nat), 2 * l.length ≤ acc →
      l.foldl (fun acc c => acc - 2 * (if is_url_char c then 1 else 0)) acc =
        acc - 2 * l.countP is_url_char by
    exact H b (3 * b.length) (by omega)
  intro l
  induction l with
  | nil => intro acc _; simp [List.countP_nil]
  | cons c rest ih =>
    intro acc hacc
    simp only [List.length_cons] at hacc
    have hcp : rest.countP is_url_char ≤ rest.length :=
      List.countP_le_length _
    rw [List.foldl_cons, List.countP_cons]
    rw [ih _ (by split_ifs <;> omega)]
    split_ifs <;> omega

lemma url_encode_length_spec (b : List Nat) :
    (url_encode b).length = 3 * b.length - 2 * b.countP is_url_char := by
  induction b with
  | nil => rfl
  | cons c rest ih =>
    have hcp : rest.countP is_url_char ≤ rest.length :=
      List.countP_le_length _
    rw [url_encode_cons, List.countP_cons, List.length_append, ih]
    split_ifs <;> simp only [List.length_cons, List.length_nil] <;> omega

lemma url_encode_all_url (b : List Nat)
    (hall : b.countP is_url_char = b.length) : url_encode b = b := by
  induction b with
  | nil => rfl
  | cons c rest ih =>
    have hcp : rest.countP is_url_char ≤ rest.length :=
      List.countP_le_length _
    rw [List.countP_cons, List.length_cons] at hall
    have hc : is_url_char c = true := by
      by_contra hx
      rw [if_neg hx] at hall
      omega
    rw [url_encode_cons, if_pos hc, ih (by rw [if_pos hc] at hall; omega)]
    rfl

lemma take_succ_set (l : List Nat) (i : Nat) (v : Nat) (h : i < l.length) :
    (l.set i v).take (i + 1) = l.take i ++ [v] := by
  induction l generalizing i with
  | nil => simp at h
  | cons x xs ih =>
    cases i with
    | zero => rfl
    | succ j =>
      have hj : j < xs.length := by
        simp only [List.length_cons] at h; omega
      rw [show (x :: xs).set (j + 1) v = x :: xs.set j v from rfl,
        List.take_succ_cons, ih j hj, List.take_succ_cons, List.cons_append]

lemma drop_set_of_lt (l : List Nat) (i k : Nat) (v : Nat) (h : i < k) :
    (l.set i v).drop k = l.drop k := by
  rw [List.drop_set, if_pos h]

lemma drop_eq_getD_cons (l : List Nat) (n : Nat) (h : n < l.length) :
    l.drop n = l.getD n 0 :: l.drop (n + 1) := by
  rw [List.drop_eq_getElem_cons h, List.getD_eq_getElem l 0 h]

lemma getD_eq_of_drop_eq (buf orig : List Nat) (fi j : Nat)
    (h : buf.drop fi = orig.drop fi) (hj : fi ≤ j) :
    buf.getD j 0 = orig.getD j 0 := by
  have hj' : j = fi + (j - fi) := by omega
  rw [hj', List.getD_eq_getElem?_getD, List.getD_eq_getElem?_getD,
    ← List.getElem?_drop, ← List.getElem?_drop, h]

/-- Reading a well-formed escape at position `fi` of the source. -/
lemma url_decode_escape_step (p : Bool) (orig : List Nat) (fi : Nat)
    (h2 : fi + 2 < orig.length) (hc37 : orig.getD fi 0 = 37)
    (hh1 : hex_to_int (orig.getD (fi + 1) 0) < 16)
    (hh2 : hex_to_int (orig.getD (fi + 2) 0) < 16) :
    url_decode p (orig.drop fi) =
      (hex_to_int (orig.getD (fi + 1) 0) * 16 +
        hex_to_int (orig.getD (fi + 2) 0)) ::
        url_decode p (orig.drop (fi + 3)) := by
  rw [drop_eq_getD_cons orig fi (by omega)]
  rw [drop_eq_getD_cons orig (fi + 1) (by omega)]
  rw [show fi + 1 + 1 = fi + 2 by omega]
  rw [drop_eq_getD_cons orig (fi + 2) (by omega)]
  rw [show fi + 2 + 1 = fi + 3 by omega]
  rw [url_decode_cons₃, if_pos ⟨hc37, hh1, hh2⟩]

/-- Reading a literal byte (no decodable escape) at position `fi` of the
source. -/
lemma url_decode_literal_step (p : Bool) (orig : List Nat) (fi : Nat)
    (hfi : fi < orig.length)
    (hno : ¬(fi + 2 < orig.length ∧ orig.getD fi 0 = 37 ∧
      hex_to_int (orig.getD (fi + 1) 0) < 16 ∧
      hex_to_int (orig.getD (fi + 2) 0) < 16)) :
    url_decode p (orig.drop fi) =
      (if p ∧ orig.getD fi 0 = 43 then 32 else orig.getD fi 0) ::
        url_decode p (orig.drop (fi + 1)) := by
  by_cases h2 : fi + 2 < orig.length
  · have hcond : ¬(orig.getD fi 0 = 37 ∧
        hex_to_int (orig.getD (fi + 1) 0) < 16 ∧
        hex_to_int (orig.getD (fi + 2) 0) < 16) := fun hx => hno ⟨h2, hx⟩
    rw [drop_eq_getD_cons orig fi (by omega)]
    rw [drop_eq_getD_cons orig (fi + 1) (by omega)]
    rw [show fi + 1 + 1 = fi + 2 by omega]
    rw [drop_eq_getD_cons orig (fi + 2) (by omega)]
    rw [url_decode_cons₃, if_neg hcond]
  · have hlen : (orig.drop (fi + 1)).length ≤ 1 := by
      rw [List.length_drop]; omega
    rw [drop_eq_getD_cons orig fi (by omega)]
    exact url_decode_short p _ _ hlen

/-- The aliased in-place loop agrees with the non-aliased decode: writes
land strictly below the read position, so every read still sees the
original bytes. -/
lemma urlDecodeInplaceAux_spec (p : Bool) (orig : List Nat) :
    ∀ (m : Nat) (buf : List Nat) (fi ti : Nat),
      buf.length - fi ≤ m → buf.length = orig.length → ti ≤ fi →
      buf.drop fi = orig.drop fi →
      (urlDecodeInplaceAux p buf fi ti).1.take
          (urlDecodeInplaceAux p buf fi ti).2 =
        buf.take ti ++ url_decode p (orig.drop fi) := by
  intro m
  induction m with
  | zero =>
    intro buf fi ti hm hlen hti hsuf
    have hfi : ¬ fi < buf.length := by omega
    rw [urlDecodeInplaceAux, dif_neg hfi]
    rw [List.drop_eq_nil_of_le (by omega : orig.length ≤ fi), url_decode_nil,
      List.append_nil]
  | succ m ih =>
    intro buf fi ti hm hlen hti hsuf
    by_cases hfi : fi < buf.length
    · rw [urlDecodeInplaceAux, dif_pos hfi]
      have e0 : buf.getD fi 0 = orig.getD fi 0 :=
        getD_eq_of_drop_eq buf orig fi fi hsuf le_rfl
      have e1 : buf.getD (fi + 1) 0 = orig.getD (fi + 1) 0 :=
        getD_eq_of_drop_eq buf orig fi (fi + 1) hsuf (by omega)
      have e2 : buf.getD (fi + 2) 0 = orig.getD (fi + 2) 0 :=
        getD_eq_of_drop_eq buf orig fi (fi + 2) hsuf (by omega)
      have hdd3 : buf.drop (fi + 3) = orig.drop (fi + 3) := by
        rw [← List.drop_drop 3 fi buf, ← List.drop_drop 3 fi orig, hsuf]
      have hdd1 : buf.drop (fi + 1) = orig.drop (fi + 1) := by
        rw [← List.drop_drop 1 fi buf, ← List.drop_drop 1 fi orig, hsuf]
      by_cases hesc : fi + 2 < buf.length ∧ buf.getD fi 0 = 37 ∧
          hex_to_int (buf.getD (fi + 1) 0) < 16 ∧
          hex_to_int (buf.getD (fi + 2) 0) < 16
      · rw [if_pos hesc]
        obtain ⟨h2l, h37, hx1, hx2⟩ := hesc
        have hrec := ih
          (buf.set ti (hex_to_int (buf.getD (fi + 1) 0) * 16 +
            hex_to_int (buf.getD (fi + 2) 0))) (fi + 3) (ti + 1)
          (by rw [List.length_set]; omega)
          (by rw [List.length_set]; exact hlen)
          (by omega)
          (by rw [drop_set_of_lt _ _ _ _ (by omega : ti < fi + 3)]
              exact hdd3)
        rw [hrec, take_succ_set buf ti _ (by omega),
          url_decode_escape_step p orig fi (by omega)
            (by rw [← e0]; exact h37) (by rw [← e1]; exact hx1)
            (by rw [← e2]; exact hx2),
          List.append_assoc, List.singleton_append, e1, e2]
      · rw [if_neg hesc]
        have hno : ¬(fi + 2 < orig.length ∧ orig.getD fi 0 = 37 ∧
            hex_to_int (orig.getD (fi + 1) 0) < 16 ∧
            hex_to_int (orig.getD (fi + 2) 0) < 16) := by
          rw [← hlen, ← e0, ← e1, ← e2]; exact hesc
        have hrec := ih
          (buf.set ti (if p ∧ buf.getD fi 0 = 43 then 32
            else buf.getD fi 0)) (fi + 1) (ti + 1)
          (by rw [List.length_set]; omega)
          (by rw [List.length_set]; exact hlen)
          (by omega)
          (by rw [drop_set_of_lt _ _ _ _ (by omega : ti < fi + 1)]
              exact hdd1)
        rw [hrec, take_succ_set buf ti _ (by omega),
          url_decode_literal_step p orig fi (by omega) hno,
          List.append_assoc, List.singleton_append, e0]
    · rw [urlDecodeInplaceAux, dif_neg hfi]
      rw [List.drop_eq_nil_of_le (by omega : orig.length ≤ fi),
        url_decode_nil, List.append_nil]

/-- C1: for every byte buffer `b`, `zero_decode (zero_encode b) = b` and
`zero_one_decode (zero_one_encode b) = b`: each run codec's decode is a
left inverse of its encode on all inputs. -/
theorem C1_run_codec_decode_left_inverse (b : List Nat) :
    zero_decode (zero_encode b) = b ∧
    zero_one_decode (zero_one_encode b) = b := by
  constructor
  · have h := x_decode_encode_append is_zero [] b.length b le_rfl
    simpa [zero_decode, zero_encode, x_decode_nil] using h
  · have h := x_decode_encode_append is_zero_or_one [] b.length b le_rfl
    simpa [zero_one_decode, zero_one_encode, x_decode_nil] using h

/-- C5: in the output of `zero_encode` and `zero_one_encode` every
sentinel byte is immediately followed by a one-byte count in 1–250, and
the stream is a sequence of literal/run blocks in which no other byte is
followed by a count; 300 zero bytes encode to two `(0x00, count)` pairs —
`[0, 250, 0, 50]`, counts 250 and 50 summing to 300, each at most 250 —
which decode back to exactly 300 zero bytes. -/
theorem C5_encoded_form_invariant (s : List Nat) :
    RunBlocks is_zero (zero_encode s) ∧
    RunBlocks is_zero_or_one (zero_one_encode s) ∧
    sentinelFollowedByCount is_zero (zero_encode s) ∧
    sentinelFollowedByCount is_zero_or_one (zero_one_encode s) ∧
    zero_encode (List.replicate 300 0) = [0, 250, 0, 50] ∧
    zero_decode [0, 250, 0, 50] = List.replicate 300 0 := by
  have hz : ∀ m, 1 ≤ m → m ≤ 250 → is_zero m = false := by
    intro m h1 h2
    simp [is_zero]
    omega
  have hzo : ∀ m, 1 ≤ m → m ≤ 250 → is_zero_or_one m = false := by
    intro m h1 h2
    simp [is_zero_or_one]
    omega
  have b1 := runBlocks_x_encode is_zero s.length s le_rfl
  have b2 := runBlocks_x_encode is_zero_or_one s.length s le_rfl
  refine ⟨b1, b2, runBlocks_sentinelFollowedByCount is_zero hz b1,
    runBlocks_sentinelFollowedByCount is_zero_or_one hzo b2,
    zero_encode_replicate_300, ?_⟩
  have h := x_decode_encode_append is_zero [] 300 (List.replicate 300 0)
    (by rw [List.length_replicate])
  rw [List.append_nil, x_decode_nil, List.append_nil] at h
  rw [← zero_encode_replicate_300]
  exact h

/-- C8: both run decoders are total functions (they are defined on every
input list), and a sentinel byte in the last position — with no count byte
after it — is appended once as a literal: after any well-formed encoded
prefix, and on a single-byte input. -/
theorem C8_trailing_sentinel_literal (c c2 : Nat) (hc : is_zero c = true)
    (hc2 : is_zero_or_one c2 = true) (l : List Nat) :
    zero_decode (zero_encode l ++ [c]) = l ++ [c] ∧
    zero_one_decode (zero_one_encode l ++ [c2]) = l ++ [c2] ∧
    zero_decode [c] = [c] ∧ zero_one_decode [c2] = [c2] := by
  refine ⟨?_, ?_, rfl, rfl⟩
  · have h := x_decode_encode_append is_zero [c] l.length l le_rfl
    simpa [zero_decode, zero_encode, x_decode_single] using h
  · have h := x_decode_encode_append is_zero_or_one [c2] l.length l le_rfl
    simpa [zero_one_decode, zero_one_encode, x_decode_single] using h

/-- C3: `hex_encode b` has length exactly `2 * b.length`, maps each byte
to two lowercase hex characters with the high nibble first, and
`hex_decode (hex_encode b)` succeeds and returns exactly `b`. -/
theorem C3_hex_encode_length_roundtrip (b : List Nat)
    (hb : ∀ c ∈ b, c < 256) :
    (hex_encode b).length = 2 * b.length ∧
    (∀ i, i < b.length →
      (hex_encode b).getD (2 * i) 0 = hexLower (b.getD i 0 / 16) ∧
      (hex_encode b).getD (2 * i + 1) 0 = hexLower (b.getD i 0 % 16)) ∧
    (∀ x ∈ hex_encode b, (48 ≤ x ∧ x ≤ 57) ∨ (97 ≤ x ∧ x ≤ 102)) ∧
    hex_decode (hex_encode b) = Except.ok b := by
  refine ⟨hex_encode_length b, hex_encode_getD b, ?_, ?_⟩
  · intro x hx
    rw [hex_encode] at hx
    obtain ⟨c, hc, hxc⟩ := List.mem_flatMap.mp hx
    have hc256 : c < 256 := hb c hc
    rcases List.mem_cons.mp hxc with rfl | hxc2
    · exact hexLower_range (c / 16) (by omega)
    · rcases List.mem_cons.mp hxc2 with rfl | hxc3
      · exact hexLower_range (c % 16) (Nat.mod_lt c (by omega))
      · simp at hxc3
  · rw [hex_decode, if_neg (by rw [hex_encode_length]; omega)]
    exact hexPairs_hex_encode b hb

/-- Witness for C3 at `b = [0, 171, 255]`. -/
theorem C3_hex_encode_length_roundtrip_witness :
    (hex_encode [0, 171, 255]).length = 2 * ([0, 171, 255] : List Nat).length ∧
    (∀ i, i < ([0, 171, 255] : List Nat).length →
      (hex_encode [0, 171, 255]).getD (2 * i) 0 =
        hexLower (([0, 171, 255] : List Nat).getD i 0 / 16) ∧
      (hex_encode [0, 171, 255]).getD (2 * i + 1) 0 =
        hexLower (([0, 171, 255] : List Nat).getD i 0 % 16)) ∧
    (∀ x ∈ hex_encode [0, 171, 255],
      (48 ≤ x ∧ x ≤ 57) ∨ (97 ≤ x ∧ x ≤ 102)) ∧
    hex_decode (hex_encode [0, 171, 255]) = Except.ok [0, 171, 255] :=
  C3_hex_encode_length_roundtrip [0, 171, 255] (by decide)

/-- C6: `hex_decode` fails with the invalid-length error exactly when the
input length is odd; on even-length input it fails with the
invalid-character error exactly when some character is outside
`[0-9a-fA-F]`; otherwise it succeeds with exactly `len / 2` bytes, each
pair parsed as `high * 16 + low`. -/
theorem C6_hex_decode_error_characterization (l : List Nat) :
    (hex_decode l = Except.error HexError.InvalidLength ↔
      l.length % 2 = 1) ∧
    (l.length % 2 = 0 →
      (hex_decode l = Except.error HexError.InvalidCharacter ↔
        ∃ c ∈ l, ¬ isHexChar c)) ∧
    (l.length % 2 = 0 → (∀ c ∈ l, isHexChar c) →
      ∃ r, hex_decode l = Except.ok r ∧ r.length = l.length / 2 ∧
        ∀ i, 2 * i + 1 < l.length →
          r.getD i 0 = hex_to_int (l.getD (2 * i) 0) * 16 +
            hex_to_int (l.getD (2 * i + 1) 0)) := by
  by_cases he : l.length % 2 = 0
  · refine ⟨?_, fun _ => ?_, fun _ hhex => ?_⟩
    · rw [hex_decode, if_neg (by omega)]
      constructor
      · intro hx
        exact absurd hx (hexPairs_ne_invalidLength l.length l le_rfl)
      · intro hx; omega
    · rw [hex_decode, if_neg (by omega)]
      exact hexPairs_invalidChar_iff l.length l le_rfl he
    · obtain ⟨r, hr, h1, h2⟩ := hexPairs_ok l.length l le_rfl he hhex
      exact ⟨r, by rw [hex_decode, if_neg (by omega)]; exact hr, h1, h2⟩
  · refine ⟨?_, fun h0 => absurd h0 he, fun h0 => absurd h0 he⟩
    rw [hex_decode, if_pos (by omega)]
    constructor
    · intro _; omega
    · intro _; rfl

/-- Witness for C6's success branch at `l = [49, 97]` (the string "1a"). -/
theorem C6_hex_decode_error_characterization_witness :
    ([49, 97] : List Nat).length % 2 = 0 ∧
    (∀ c ∈ ([49, 97] : List Nat), isHexChar c) ∧
    (∃ r, hex_decode [49, 97] = Except.ok r ∧
      r.length = ([49, 97] : List Nat).length / 2 ∧
      ∀ i, 2 * i + 1 < ([49, 97] : List Nat).length →
        r.getD i 0 = hex_to_int (([49, 97] : List Nat).getD (2 * i) 0) * 16 +
          hex_to_int (([49, 97] : List Nat).getD (2 * i + 1) 0)) :=
  ⟨by decide, by decide,
    (C6_hex_decode_error_characterization [49, 97]).2.2 (by decide)
      (by decide)⟩

/-- C10: `buffer_to_hex b` has length `2 * b.length`, writes two uppercase
hex digits per byte with the LOW nibble first, each character pair being
the swap of the uppercased `hex_encode` pair; its output is not in the
high-nibble-first format `hex_decode` expects, as the concrete byte 171
shows. -/
theorem C10_buffer_to_hex_format (b : List Nat) (hb : ∀ c ∈ b, c < 256) :
    (buffer_to_hex b).length = 2 * b.length ∧
    (∀ i, i < b.length →
      (buffer_to_hex b).getD (2 * i) 0 = hexUpper (b.getD i 0 % 16) ∧
      (buffer_to_hex b).getD (2 * i + 1) 0 = hexUpper (b.getD i 0 / 16)) ∧
    (∀ x ∈ buffer_to_hex b, (48 ≤ x ∧ x ≤ 57) ∨ (65 ≤ x ∧ x ≤ 70)) ∧
    (∀ i, i < b.length →
      (buffer_to_hex b).getD (2 * i) 0 =
        toUpper ((hex_encode b).getD (2 * i + 1) 0) ∧
      (buffer_to_hex b).getD (2 * i + 1) 0 =
        toUpper ((hex_encode b).getD (2 * i) 0)) ∧
    hex_decode (buffer_to_hex [171]) = Except.ok [186] ∧
    hex_decode (buffer_to_hex [171]) ≠ Except.ok [171] := by
  have hdec : hex_decode (buffer_to_hex [171]) = Except.ok [186] := by rfl
  refine ⟨buffer_to_hex_length b, buffer_to_hex_getD b, ?_, ?_, hdec,
    fun hx => by rw [hdec] at hx; simp at hx⟩
  · intro x hx
    rw [buffer_to_hex] at hx
    obtain ⟨c, hc, hxc⟩ := List.mem_flatMap.mp hx
    have hc256 : c < 256 := hb c hc
    rcases List.mem_cons.mp hxc with rfl | hxc2
    · exact hexUpper_range (c % 16) (Nat.mod_lt c (by omega))
    · rcases List.mem_cons.mp hxc2 with rfl | hxc3
      · exact hexUpper_range (c / 16) (by omega)
      · simp at hxc3
  · intro i hi
    have hmem : b.getD i 0 ∈ b := by
      rw [List.getD_eq_getElem b 0 hi]
      exact List.getElem_mem hi
    have hc256 : b.getD i 0 < 256 := hb _ hmem
    obtain ⟨e1, e2⟩ := buffer_to_hex_getD b i hi
    obtain ⟨f1, f2⟩ := hex_encode_getD b i hi
    rw [e1, e2, f1, f2,
      toUpper_hexLower (b.getD i 0 % 16) (Nat.mod_lt _ (by omega)),
      toUpper_hexLower (b.getD i 0 / 16) (by omega)]
    exact ⟨rfl, rfl⟩

/-- Witness for C10 at `b = [171]`. -/
theorem C10_buffer_to_hex_format_witness :
    (buffer_to_hex [171]).length = 2 * ([171] : List Nat).length ∧
    (∀ i, i < ([171] : List Nat).length →
      (buffer_to_hex [171]).getD (2 * i) 0 =
        hexUpper (([171] : List Nat).getD i 0 % 16) ∧
      (buffer_to_hex [171]).getD (2 * i + 1) 0 =
        hexUpper (([171] : List Nat).getD i 0 / 16)) ∧
    (∀ x ∈ buffer_to_hex [171],
      (48 ≤ x ∧ x ≤ 57) ∨ (65 ≤ x ∧ x ≤ 70)) ∧
    (∀ i, i < ([171] : List Nat).length →
      (buffer_to_hex [171]).getD (2 * i) 0 =
        toUpper ((hex_encode [171]).getD (2 * i + 1) 0) ∧
      (buffer_to_hex [171]).getD (2 * i + 1) 0 =
        toUpper ((hex_encode [171]).getD (2 * i) 0)) ∧
    hex_decode (buffer_to_hex [171]) = Except.ok [186] ∧
    hex_decode (buffer_to_hex [171]) ≠ Except.ok [171] :=
  C10_buffer_to_hex_format [171] (by decide)

/-- C2: for every byte buffer `b`,
`url_decode (url_encode b, false) = b`: percent-decoding with
`decode_plus_sign_as_space` unset is a left inverse of `url_encode`. -/
theorem C2_url_decode_url_encode (b : List Nat)
    (hb : ∀ c ∈ b, c < 256) :
    url_decode false (url_encode b) = b := by
  induction b with
  | nil => rfl
  | cons c rest ih =>
    have hc256 : c < 256 := hb c (List.mem_cons_self c rest)
    have hrest := ih fun x hx => hb x (List.mem_cons_of_mem c hx)
    rw [url_encode_cons]
    by_cases hc : is_url_char c
    · rw [if_pos hc, List.singleton_append,
        url_decode_literal false c _ (is_url_char_ne_37 c hc), hrest]
      simp
    · rw [if_neg hc]
      have e1 : hex_to_int (hexUpper (c / 16)) = c / 16 :=
        hex_to_int_hexUpper _ (by omega)
      have e2 : hex_to_int (hexUpper (c % 16)) = c % 16 :=
        hex_to_int_hexUpper _ (Nat.mod_lt _ (by omega))
      rw [List.cons_append, List.cons_append, List.cons_append,
        List.nil_append, url_decode_cons₃,
        if_pos ⟨rfl, by rw [e1]; omega, by rw [e2]; omega⟩, hrest, e1, e2]
      have := Nat.div_add_mod c 16
      congr 1
      omega

/-- Witness for C2 at `b = [0, 65, 255]`. -/
theorem C2_url_decode_url_encode_witness :
    (∀ c ∈ ([0, 65, 255] : List Nat), c < 256) ∧
    url_decode false (url_encode [0, 65, 255]) = [0, 65, 255] :=
  ⟨by decide, C2_url_decode_url_encode [0, 65, 255] (by decide)⟩

/-- C4: `url_decode` is total — its output is defined for every input and
flag, with length at most the input length; a malformed escape is not
decoded and the `%` passes through literally, and the truncated escape
`"%2"` passes through unchanged. -/
theorem C4_url_decode_total_permissive (p : Bool) (l : List Nat) :
    (url_decode p l).length ≤ l.length ∧
    url_decode false [37, 50] = [37, 50] ∧
    (∀ h l2 rest, ¬(hex_to_int h < 16 ∧ hex_to_int l2 < 16) →
      url_decode p (37 :: h :: l2 :: rest) =
        37 :: url_decode p (h :: l2 :: rest)) := by
  refine ⟨url_decode_length_le p l.length l le_rfl, by rfl, ?_⟩
  intro h l2 rest hmal
  rw [url_decode_cons₃, if_neg fun hx => hmal hx.2, if_neg (by simp)]

/-- Witness for C4's malformed-escape branch at the input "%g0A". -/
theorem C4_url_decode_total_permissive_witness :
    url_decode false [37, 103, 48, 65] =
      37 :: url_decode false [103, 48, 65] ∧
    url_decode false [37, 50] = [37, 50] :=
  ⟨(C4_url_decode_total_permissive false [37, 50]).2.2 103 48 [65]
      (by decide),
    (C4_url_decode_total_permissive false [37, 50]).2.1⟩

/-- C7: `url_encode` output length is exactly
`3 * N - 2 * (count of unreserved bytes)`, the precomputed length always
matches the produced length (the `CHECK` never fails), and when that
length equals the input length the input is returned unchanged. -/
theorem C7_url_encode_length_invariant (b : List Nat) :
    (url_encode b).length = 3 * b.length - 2 * b.countP is_url_char ∧
    url_encode_length b = (url_encode b).length ∧
    (url_encode_length b = b.length → url_encode b = b) := by
  have h1 := url_encode_length_spec b
  have h2 := url_encode_length_eq_foldr b
  refine ⟨h1, by rw [h1, h2], ?_⟩
  intro heq
  rw [h2] at heq
  have hcp : b.countP is_url_char ≤ b.length := List.countP_le_length _
  exact url_encode_all_url b (by omega)

/-- Witness for C7's unchanged-input branch at `b = [97, 98]`. -/
theorem C7_url_encode_length_invariant_witness :
    url_encode_length [97, 98] = ([97, 98] : List Nat).length ∧
    url_encode [97, 98] = [97, 98] :=
  ⟨by rfl, (C7_url_encode_length_invariant [97, 98]).2.2 (by rfl)⟩

/-- C9: for every buffer and flag, `url_decode_inplace` — decoding the
buffer onto itself and truncating to the written length — produces
exactly the bytes of the owned-result `url_decode`: the write position
never overtakes the read position, so aliasing never corrupts the
result. -/
theorem C9_url_decode_inplace_equiv (p : Bool) (b : List Nat) :
    url_decode_inplace p b = url_decode p b := by
  have h := urlDecodeInplaceAux_spec p b b.length b 0 0 (by omega) rfl
    (by omega) rfl
  rw [url_decode_inplace, h, List.take_zero, List.nil_append, List.drop_zero]

/-- Witness for C8 at `c = 0`, `c2 = 255`, `l = [0, 7]`. -/
theorem C8_trailing_sentinel_literal_witness :
    is_zero 0 = true ∧ is_zero_or_one 255 = true ∧
    (zero_decode (zero_encode [0, 7] ++ [0]) = [0, 7] ++ [0] ∧
      zero_one_decode (zero_one_encode [0, 7] ++ [255]) = [0, 7] ++ [255] ∧
      zero_decode [0] = [0] ∧ zero_one_decode [255] = [255]) :=
  ⟨rfl, rfl, C8_trailing_sentinel_literal 0 255 rfl rfl [0, 7]⟩

end td
